import Mathlib

/-!
A verification development for the `ruxl` library (`src/lib.rs`), a
Haxl-style batched data-fetching effect system.

The Rust `Fetch<T>` is a one-shot thunk `FnOnce() -> ReqResult<T>` whose
forcing yields a step `Done(T)`, `Blocked(Vec<AbsRequest>, Fetch<T>)`, or
`Throw(Exception)`.  Once the outcome of every request is fixed, forcing is
pure, so a `Fetch` is faithfully represented by the well-founded tree of the
steps its (transitive) forcings produce; a combinator, which in Rust builds a
thunk that forces its inputs, becomes the corresponding function on trees.
An `AbsRequest` is a type-erased thunk identified here by the `Nat` id of its
`Request`; the evaluator's trace records the batches handed to
`AbsRequest::run_all`, in order.

The status-cell handoff inside `Fetch::new` (the thunk writes the request's
outcome into the cell, the continuation reads-and-clears it) is collapsed in
this first model: the continuation directly carries the outcome.  The cell
protocol itself is modelled separately and faithfully (allocation at force
time, write at drain time, read-and-clear at continuation force time,
`unreachable!()` as a distinguished `dead` outcome) in the `Cells` section
below, where the collapse is justified.
-/

namespace Ruxl

universe u v

/-- `ExceptionType` from src/lib.rs lines 44-50. -/
inductive ExceptionType : Type where
  | Msg : String → ExceptionType
  | HttpError : Nat → ExceptionType
  | OutOfMemory : ExceptionType
  | Timeout : ExceptionType
deriving DecidableEq

/-- `Exception` from src/lib.rs lines 52-56. -/
inductive Exception : Type where
  | Err : ExceptionType → Exception
  | Nothing : Exception
deriving DecidableEq

deriving instance DecidableEq for Except

/-- A `Request` (trait at src/lib.rs lines 7-9) is a single-shot computation
producing `Ok(T)` or `Err(Exception)`.  It is modelled by the outcome its
`run` produces, together with a `Nat` identity for the type-erased
`AbsRequest` thunk built from it (used only to observe batches). -/
structure Request (T : Type u) : Type u where
  id : Nat
  run : Except Exception T

/-- The tree of steps produced by forcing a `Fetch<T>` (the `ReqResult<T>`
enum at src/lib.rs lines 65-69, with the continuation of a `Blocked` step
unfolded recursively, and each opaque `AbsRequest` represented by its id). -/
inductive Fetch (T : Type u) : Type u where
  | Done : T → Fetch T
  | Blocked : List Nat → Fetch T → Fetch T
  | Throw : Exception → Fetch T
deriving DecidableEq

/-- `Fetch::pure` (src/lib.rs lines 133-135): forcing yields `Done(a)`. -/
def Fetch.pure (a : T) : Fetch T := .Done a

/-- `Fetch::pure_fn` (src/lib.rs lines 137-139): forcing yields `Done(f())`. -/
def Fetch.pure_fn (f : Unit → T) : Fetch T := .Done (f ())

/-- `throw` (src/lib.rs lines 110-112): forcing yields `Throw(e)`. -/
def throw (e : Exception) : Fetch T := .Throw e

/-- `Fetch::new` (src/lib.rs lines 80-107).  Forcing allocates a status cell,
builds one opaque thunk that runs the request and writes `FetchSuccess`/
`FetchException` into the cell, and returns `Blocked([thunk], k)` where `k`
reads-and-clears the cell and yields `Done(v)` on `FetchSuccess(v)` and
`Throw(e)` on `FetchException(e)`.  Composing write-then-read (the evaluator
drains the batch before forcing `k`; see the `Cells` section) the
continuation is the direct translation of the request's outcome. -/
def Fetch.new (r : Request T) : Fetch T :=
  .Blocked [r.id]
    (match r.run with
     | .ok v => .Done v
     | .error e => .Throw e)

/-- `Fetch::bind` (src/lib.rs lines 146-156). -/
def Fetch.bind : Fetch T → (T → Fetch U) → Fetch U
  | .Done a, k => k a
  | .Blocked br c, k => .Blocked br (c.bind k)
  | .Throw e, _ => .Throw e

/-- `Fetch::fmap` (src/lib.rs lines 158-164). -/
def Fetch.fmap : Fetch T → (T → U) → Fetch U
  | .Done a, f => .Done (f a)
  | .Blocked br c, f => .Blocked br (c.fmap f)
  | .Throw e, _ => .Throw e

/-- `vec_merge` (src/lib.rs lines 308-314): swap so the shorter list is
appended onto the longer one. -/
def vec_merge (a b : List α) : List α :=
  if a.length < b.length then b ++ a else a ++ b

/-- `catch` (src/lib.rs lines 114-130).  Note the handler receives the
`ExceptionType` payload of `Exception::Err`; `Exception::Nothing` is
re-thrown unhandled. -/
def Fetch.catch : Fetch T → (ExceptionType → Fetch T) → Fetch T
  | .Done a, _ => .Done a
  | .Blocked br c, h => .Blocked br (Fetch.catch c h)
  | .Throw (Exception.Err e), h => h e
  | .Throw Exception.Nothing, _ => .Throw Exception.Nothing

/-- `ap` (src/lib.rs lines 183-202).  Both arguments are forced (in Rust the
tuple `(f.get()(), x.get()())` evaluates left to right), then the seven match
arms combine the two steps; the arms below are the source's arms in order. -/
def ap : Fetch (T → U) → Fetch T → Fetch U
  | .Done f, .Done x => .Done (f x)
  | .Done f, .Blocked br c => .Blocked br (c.fmap f)
  | .Blocked br c, .Done x => .Blocked br (ap c (Fetch.pure x))
  | .Blocked br1 cf, .Blocked br2 cx => .Blocked (vec_merge br1 br2) (ap cf cx)
  | .Done _, .Throw e => .Throw e
  | .Throw e, _ => .Throw e
  | .Blocked br c, .Throw e => .Blocked br (ap c (throw e))

/-- `ap2` (src/lib.rs line 236, expanded from `ap_builder!`): the function
fetch is curried with `fmap` and applied with two `ap`s. -/
def ap2 (f : Fetch (T1 → T2 → U)) (x1 : Fetch T1) (x2 : Fetch T2) : Fetch U :=
  ap (ap (f.fmap (fun f => fun x1 => fun x2 => f x1 x2)) x1) x2

/-- `Fetch::run` (src/lib.rs lines 166-180), instrumented: alongside the
`Result`, it returns the list of batches handed to `AbsRequest::run_all`
(one entry per `Blocked` step, in order). -/
def Fetch.run : Fetch T → List (List Nat) × Except Exception T
  | .Done a => ([], .ok a)
  | .Blocked br c => ((br :: (Fetch.run c).1), (Fetch.run c).2)
  | .Throw e => ([], .error e)

/-- `cons_f` (src/lib.rs lines 287-297): `ys.push(x)` appends `x` at the end
of the accumulated vector. -/
def cons_f (ys : Fetch (List T)) (x : Fetch T) : Fetch (List T) :=
  ap (ys.fmap (fun ys => fun x => ys ++ [x])) x

/-- `Traversable::sequence` (src/lib.rs lines 301-306): the iterator's `fold`
is a left fold of `cons_f` starting from `pure(Vec::new())`. -/
def sequence (l : List (Fetch T)) : Fetch (List T) :=
  l.foldl cons_f (Fetch.pure [])

/-- The spec invariant of §3: every `Blocked` step carries a non-empty
request list. -/
def NE : Fetch T → Bool
  | .Done _ => true
  | .Blocked br c => (!br.isEmpty) && NE c
  | .Throw _ => true

/-! ### The status-cell protocol (`Cells`)

This section models `Fetch::new`'s cell handoff without the collapse used
above.  Forcing `Fetch::new(request)` (src/lib.rs lines 80-107) allocates a
fresh status cell in `NotFetched`, returns `Blocked([thunk], k)` where the
opaque thunk, when the evaluator drains the batch, runs the request and
writes its outcome into the cell, and the continuation `k`, when forced,
reads the cell with `mem::replace(v, NotFetched)` and yields `Done`/`Throw`
— or hits `unreachable!()` if the cell is still `NotFetched`.

Cells are identified by `Nat`; the state `St` carries the allocation counter
and the set of currently written cells.  An opaque request in a batch is
represented by the id of the cell it writes; draining a batch writes all its
cells.  Since a request's only observable effect is the outcome delivered to
its paired continuation, the continuation (`FC.rdr`) carries that outcome and
the cell mediates only the protocol state, exactly the part the
`unreachable!()` guards.  Forcing is fuel-indexed because `bind` forces the
fetch returned by an arbitrary user continuation. -/

/-- Syntax of every Fetch a user can build from the public constructors and
combinators of src/lib.rs: `pure`, `pure_fn`, `new` (a request, given by the
outcome its `run` produces), `throw`, `bind`, `fmap`, `ap`, `catch`.
(`ap2`..`ap5`, `cons_f` and `sequence` are compositions of these.) -/
inductive FB : Type u → Type (u + 1) where
  | pureF {T : Type u} : T → FB T
  | pureFnF {T : Type u} : (Unit → T) → FB T
  | newF {T : Type u} : Except Exception T → FB T
  | throwF {T : Type u} : Exception → FB T
  | bindF {A T : Type u} : FB A → (A → FB T) → FB T
  | fmapF {A T : Type u} : FB A → (A → T) → FB T
  | apF {A T : Type u} : FB (A → T) → FB A → FB T
  | catchF {T : Type u} : FB T → (ExceptionType → FB T) → FB T

/-- Run-time fetches: the closures forcing builds.  `rdr i o` is the
continuation created by forcing `new` — the reader of cell `i`, which will
deliver outcome `o` once the cell has been written.  `pureC`, `throwC` appear
in the continuations `ap` builds (`ap(c, Fetch::pure(x))`, `ap(c, throw(e))`);
the others mirror the public combinators, whose sequential continuations
(`bind`'s `k`, `catch`'s handler) are public code. -/
inductive FC : Type u → Type (u + 1) where
  | pureC {T : Type u} : T → FC T
  | pureFnC {T : Type u} : (Unit → T) → FC T
  | newC {T : Type u} : Except Exception T → FC T
  | throwC {T : Type u} : Exception → FC T
  | rdr {T : Type u} : Nat → Except Exception T → FC T
  | bindC {A T : Type u} : FC A → (A → FB T) → FC T
  | fmapC {A T : Type u} : FC A → (A → T) → FC T
  | apC {A T : Type u} : FC (A → T) → FC A → FC T
  | catchC {T : Type u} : FC T → (ExceptionType → FB T) → FC T

/-- A public fetch is a run-time fetch; no `rdr` occurs in it. -/
def embed : {T : Type u} → FB T → FC T
  | _, .pureF a => .pureC a
  | _, .pureFnF f => .pureFnC f
  | _, .newF o => .newC o
  | _, .throwF e => .throwC e
  | _, .bindF m k => .bindC (embed m) k
  | _, .fmapF m f => .fmapC (embed m) f
  | _, .apF f x => .apC (embed f) (embed x)
  | _, .catchF m h => .catchC (embed m) h

/-- The cells read by the reader continuations occurring in a run-time fetch
(continuations supplied by user code contain none). -/
def readers : {T : Type u} → FC T → List Nat
  | _, .pureC _ => []
  | _, .pureFnC _ => []
  | _, .newC _ => []
  | _, .throwC _ => []
  | _, .rdr i _ => [i]
  | _, .bindC m _ => readers m
  | _, .fmapC m _ => readers m
  | _, .apC f x => readers f ++ readers x
  | _, .catchC m _ => readers m

/-- The step a forcing yields: `ReqResult` with the batch as cell ids. -/
inductive StC : Type u → Type (u + 1) where
  | done {T : Type u} : T → StC T
  | blocked {T : Type u} : List Nat → FC T → StC T
  | throwS {T : Type u} : Exception → StC T

/-- Global cell state: the allocation counter and the written cells. -/
structure St : Type where
  fresh : Nat
  cells : List Nat

/-- Outcome of a fuel-indexed computation: a result, the `unreachable!()`
branch (`dead`), or fuel exhaustion (`gas`). -/
inductive FR (α : Type v) : Type v where
  | ok : α → FR α
  | dead : FR α
  | gas : FR α

/-- Whether the `unreachable!()` branch was taken. -/
def isDead : FR α → Bool
  | .dead => true
  | _ => false

/-- Forcing a run-time fetch, fuel-indexed.  Each case is the forcing code of
the corresponding combinator in src/lib.rs; in `apC` both sides are forced
left to right before the arms combine them (the Rust tuple
`(f.get()(), x.get()())`), and `rdr` performs the read-and-clear of
`Fetch::new`'s continuation, with `.dead` as its `unreachable!()` branch. -/
def forceC : Nat → {T : Type u} → St → FC T → FR (StC T × St)
  | 0, _, _, _ => .gas
  | n + 1, _, st, c =>
    match c with
    | .pureC a => .ok (.done a, st)
    | .pureFnC f => .ok (.done (f ()), st)
    | .throwC e => .ok (.throwS e, st)
    | .newC o => .ok (.blocked [st.fresh] (.rdr st.fresh o), ⟨st.fresh + 1, st.cells⟩)
    | .rdr i o =>
      if i ∈ st.cells then
        match o with
        | .ok v => .ok (.done v, ⟨st.fresh, st.cells.erase i⟩)
        | .error e => .ok (.throwS e, ⟨st.fresh, st.cells.erase i⟩)
      else .dead
    | .bindC m k =>
      match forceC n st m with
      | .gas => .gas
      | .dead => .dead
      | .ok (.done a, st1) => forceC n st1 (embed (k a))
      | .ok (.blocked br c1, st1) => .ok (.blocked br (.bindC c1 k), st1)
      | .ok (.throwS e, st1) => .ok (.throwS e, st1)
    | .fmapC m f =>
      match forceC n st m with
      | .gas => .gas
      | .dead => .dead
      | .ok (.done a, st1) => .ok (.done (f a), st1)
      | .ok (.blocked br c1, st1) => .ok (.blocked br (.fmapC c1 f), st1)
      | .ok (.throwS e, st1) => .ok (.throwS e, st1)
    | .apC f x =>
      match forceC n st f with
      | .gas => .gas
      | .dead => .dead
      | .ok (sf, st1) =>
        match forceC n st1 x with
        | .gas => .gas
        | .dead => .dead
        | .ok (sx, st2) =>
          match sf, sx with
          | .done g, .done v => .ok (.done (g v), st2)
          | .done g, .blocked br c2 => .ok (.blocked br (.fmapC c2 g), st2)
          | .blocked br c1, .done v => .ok (.blocked br (.apC c1 (.pureC v)), st2)
          | .blocked br1 c1, .blocked br2 c2 =>
            .ok (.blocked (vec_merge br1 br2) (.apC c1 c2), st2)
          | .done _, .throwS e => .ok (.throwS e, st2)
          | .throwS e, _ => .ok (.throwS e, st2)
          | .blocked br c1, .throwS e => .ok (.blocked br (.apC c1 (.throwC e)), st2)
    | .catchC m h =>
      match forceC n st m with
      | .gas => .gas
      | .dead => .dead
      | .ok (.done a, st1) => .ok (.done a, st1)
      | .ok (.blocked br c1, st1) => .ok (.blocked br (.catchC c1 h), st1)
      | .ok (.throwS (Exception.Err e), st1) => forceC n st1 (embed (h e))
      | .ok (.throwS Exception.Nothing, st1) => .ok (.throwS Exception.Nothing, st1)

/-- `AbsRequest::run_all` (src/lib.rs lines 37-42) on a batch: every opaque
thunk runs its request and writes the outcome into its cell
(`NotFetched → FetchSuccess | FetchException`); the call is a barrier. -/
def drain (st : St) (br : List Nat) : St := ⟨st.fresh, br ++ st.cells⟩

/-- `Fetch::run` (src/lib.rs lines 166-180) over the cell model: force; on
`Blocked(br, k)` drain the whole batch, then continue with `k`. -/
def runB : Nat → {T : Type u} → St → FC T → FR (Except Exception T)
  | 0, _, _, _ => .gas
  | n + 1, _, st, c =>
    match forceC (n + 1) st c with
    | .gas => .gas
    | .dead => .dead
    | .ok (.done a, _) => .ok (.ok a)
    | .ok (.throwS e, _) => .ok (.error e)
    | .ok (.blocked br cont, st1) => runB n (drain st1 br) cont

/-- Evaluating a public fetch from the initial state (no cell allocated,
none written). -/
def runFB (n : Nat) (fb : FB T) : FR (Except Exception T) :=
  runB n ⟨0, []⟩ (embed fb)

/-- Precondition for forcing: the reader cells are pairwise distinct, all
written, and all already allocated. -/
def Pre (st : St) (c : FC T) : Prop :=
  (readers c).Nodup ∧ (∀ i ∈ readers c, i ∈ st.cells) ∧ ∀ i ∈ readers c, i < st.fresh

/-- What forcing guarantees: the counter grows, no cell is written, only read
cells are cleared, and a `Blocked` step's continuation has pairwise distinct
readers, each either a surviving reader of the input or covered by the batch,
the batch being made of cells allocated during this forcing. -/
def Post (st : St) (c : FC T) (step : StC T) (st1 : St) : Prop :=
  st.fresh ≤ st1.fresh ∧
  (∀ j ∈ st1.cells, j ∈ st.cells) ∧
  (∀ j ∈ st.cells, j ∉ readers c → j ∈ st1.cells) ∧
  ∀ br cont, step = StC.blocked br cont →
    (readers cont).Nodup ∧
    (∀ i ∈ readers cont, (i ∈ readers c ∧ i ∈ st1.cells) ∨ i ∈ br) ∧
    (∀ i ∈ br, st.fresh ≤ i ∧ i < st1.fresh) ∧
    ∀ i ∈ readers cont, i < st1.fresh

/-! ### Lemmas about the tree model -/

theorem vec_merge_ne_nil (a b : List α) (ha : a ≠ []) (hb : b ≠ []) :
    vec_merge a b ≠ [] := by
  unfold vec_merge
  split <;> simp [ha, hb]

theorem vec_merge_snoc (a : List α) (x : α) (ha : a ≠ []) :
    vec_merge a [x] = a ++ [x] := by
  have h : ¬ a.length < [x].length := by
    cases a with
    | nil => exact absurd rfl ha
    | cons y ys => simp
  unfold vec_merge
  rw [if_neg h]

theorem run_fmap_snd (m : Fetch T) (f : T → U) (v : T)
    (h : (Fetch.run m).2 = .ok v) : (Fetch.run (m.fmap f)).2 = .ok (f v) := by
  induction m with
  | Done a =>
    simp [Fetch.run] at h
    simp [Fetch.fmap, Fetch.run, h]
  | Blocked br c ih =>
    simp [Fetch.run] at h
    simpa [Fetch.fmap, Fetch.run] using ih h
  | Throw e => simp [Fetch.run] at h

theorem run_ap_snd (mf : Fetch (T → U)) (g : T → U)
    (hf : (Fetch.run mf).2 = .ok g) :
    ∀ (mx : Fetch T) (x : T), (Fetch.run mx).2 = .ok x →
    (Fetch.run (ap mf mx)).2 = .ok (g x) := by
  induction mf with
  | Done a =>
    simp [Fetch.run] at hf
    subst hf
    intro mx x hx
    cases mx with
    | Done b =>
      simp [Fetch.run] at hx
      simp [ap, Fetch.run, hx]
    | Blocked br c =>
      simp [Fetch.run] at hx
      simpa [ap, Fetch.run] using run_fmap_snd c a x hx
    | Throw e => simp [Fetch.run] at hx
  | Blocked br cf ih =>
    simp [Fetch.run] at hf
    intro mx x hx
    cases mx with
    | Done b =>
      simp [Fetch.run] at hx
      subst hx
      simpa [ap, Fetch.run] using ih hf (Fetch.pure b) b rfl
    | Blocked br2 cx =>
      simp [Fetch.run] at hx
      simpa [ap, Fetch.run] using ih hf cx x hx
    | Throw e => simp [Fetch.run] at hx
  | Throw e => simp [Fetch.run] at hf

theorem run_ap_throw_snd (mf : Fetch (T → U)) (e : Exception) (g : T → U)
    (hf : (Fetch.run mf).2 = .ok g) :
    (Fetch.run (ap mf (throw e))).2 = .error e := by
  induction mf with
  | Done a => simp [ap, throw, Fetch.run]
  | Blocked br cf ih =>
    simp [Fetch.run] at hf
    simpa [ap, throw, Fetch.run] using ih hf
  | Throw e1 => simp [Fetch.run] at hf

theorem run_catch_nothing (m : Fetch T) (h : ExceptionType → Fetch T)
    (hm : (Fetch.run m).2 = .error Exception.Nothing) :
    (Fetch.run (Fetch.catch m h)).2 = .error Exception.Nothing := by
  induction m with
  | Done a => simp [Fetch.run] at hm
  | Blocked br c ih =>
    simp [Fetch.run] at hm
    simpa [Fetch.catch, Fetch.run] using ih hm
  | Throw e =>
    cases e with
    | Err et => simp [Fetch.run] at hm
    | Nothing => simp [Fetch.catch, Fetch.run]

/-! ### Claims C9, C3, C10 -/

/-- C9: monad right identity — for every Fetch `m`, `m.bind(Fetch::pure)`
forces to the same step tree as `m` at every level. -/
theorem C9_bind_pure_right_identity (m : Fetch T) : m.bind Fetch.pure = m := by
  induction m with
  | Done a => rfl
  | Blocked br c ih => simp [Fetch.bind, Fetch.pure] at ih ⊢; exact ih
  | Throw e => rfl

/-- C3, counterexample: with the thrown error `Exception::Nothing` and the
constant handler `h = fun _ => pure 0`, `catch(throw(Nothing), h)` forces to
`Throw(Nothing)`, which differs from `pure 0`, the fetch `h` returns on every
possible argument — the handler's result does not replace the computation,
against the claim's universal quantification over errors. -/
theorem C3_counterexample :
    Fetch.catch (throw Exception.Nothing) (fun _ => Fetch.pure (0 : Nat))
        = throw Exception.Nothing
    ∧ Fetch.pure (0 : Nat) ≠ throw Exception.Nothing :=
  ⟨rfl, by decide⟩

/-- C3, amended: `catch(pure(a), h) = pure(a)` without invoking `h`; for a
thrown `Exception::Err(et)` the handler is invoked on the payload `et` and
its result replaces the computation; a thrown `Exception::Nothing` is
re-yielded unchanged. -/
theorem C3_amended_catch_identity :
    (∀ (T : Type u) (a : T) (h : ExceptionType → Fetch T),
        Fetch.catch (Fetch.pure a) h = Fetch.pure a)
    ∧ (∀ (T : Type u) (et : ExceptionType) (h : ExceptionType → Fetch T),
        Fetch.catch (throw (Exception.Err et)) h = h et)
    ∧ (∀ (T : Type u) (h : ExceptionType → Fetch T),
        Fetch.catch (throw Exception.Nothing) h = throw Exception.Nothing) :=
  ⟨fun _ _ _ => rfl, fun _ _ _ => rfl, fun _ _ => rfl⟩

/-- C10: `catch(throw(Exception::Nothing), h)` re-yields `Throw(Nothing)`
for every handler `h` (the handler, which receives only the `ExceptionType`
payload of the `Err` variant, is never invoked), and a `Nothing` error
passes through any `catch` at `run` level. -/
theorem C10_nothing_uncaught :
    (∀ (T : Type u) (h : ExceptionType → Fetch T),
        Fetch.catch (throw Exception.Nothing) h = throw Exception.Nothing)
    ∧ (∀ (T : Type u) (m : Fetch T) (h : ExceptionType → Fetch T),
        (Fetch.run m).2 = .error Exception.Nothing →
        (Fetch.run (Fetch.catch m h)).2 = .error Exception.Nothing) :=
  ⟨fun _ _ => rfl, fun _ m h hm => run_catch_nothing m h hm⟩

/-- C10, witness at a concrete handler. -/
theorem C10_witness :
    (Fetch.run (Fetch.catch (throw Exception.Nothing)
        (fun _ => Fetch.pure (7 : Nat)))).2 = .error Exception.Nothing :=
  C10_nothing_uncaught.2 Nat (throw Exception.Nothing) (fun _ => Fetch.pure 7) rfl

/-! ### Claims C5, C1, C2, C4 -/

/-- C5: forcing `Fetch::new(r)` yields a `Blocked` step whose request list is
the single opaque thunk of `r`, and `run` returns `Ok(v)` when `r.run()`
yields `Ok(v)` and `Err(e)` when it yields `Err(e)` (the thunk writes the
outcome into the status cell; the continuation reads-and-clears it, turning
`FetchSuccess` into `Done` and `FetchException` into `Throw`). -/
theorem C5_new_single_request (r : Request T) :
    (∃ k, Fetch.new r = Fetch.Blocked [r.id] k)
    ∧ (∀ v, r.run = .ok v → Fetch.run (Fetch.new r) = ([[r.id]], .ok v))
    ∧ (∀ e, r.run = .error e → Fetch.run (Fetch.new r) = ([[r.id]], .error e)) := by
  refine ⟨⟨_, rfl⟩, ?_, ?_⟩ <;> intro y hy <;> simp [Fetch.new, Fetch.run, hy]

/-- C5, witness: the spec's scenario `new(ReqA(result=7)).run() == Ok(7)`,
executor invoked once with batch size 1. -/
theorem C5_witness :
    Fetch.run (Fetch.new (⟨0, Except.ok (7 : Nat)⟩ : Request Nat)) = ([[0]], .ok 7) :=
  (C5_new_single_request ⟨0, Except.ok 7⟩).2.1 7 rfl

/-- C1: `ap2(pure(f), new(r1), new(r2))` run issues exactly one batch, made of
exactly the two opaque requests of `r1` and `r2` (the two `Blocked` frontiers
are merged before the executor is invoked), and returns `Ok(f(a,b))` when the
requests yield `Ok(a)` and `Ok(b)`. -/
theorem C1_ap2_single_batch (f : T1 → T2 → U) (r1 : Request T1) (r2 : Request T2) :
    (Fetch.run (ap2 (Fetch.pure f) (Fetch.new r1) (Fetch.new r2))).1 = [[r1.id, r2.id]]
    ∧ ∀ a b, r1.run = .ok a → r2.run = .ok b →
      (Fetch.run (ap2 (Fetch.pure f) (Fetch.new r1) (Fetch.new r2))).2 = .ok (f a b) := by
  obtain ⟨i1, o1⟩ := r1
  obtain ⟨i2, o2⟩ := r2
  constructor
  · rcases o1 with e1 | v1 <;> rcases o2 with e2 | v2 <;>
      simp [ap2, Fetch.new, Fetch.pure, Fetch.fmap, ap, Fetch.run, vec_merge]
  · intro a b h1 h2
    simp only at h1 h2
    subst h1; subst h2
    simp [ap2, Fetch.new, Fetch.pure, Fetch.fmap, ap, Fetch.run, vec_merge]

/-- C1, witness: the spec's scenario 3 with immediate requests,
`lift2((a,b) -> a+b, new(ReqA(1)), new(ReqB(2))).run() == Ok(3)` in one
batch of size 2. -/
theorem C1_witness :
    (Fetch.run (ap2 (Fetch.pure (· + ·)) (Fetch.new (⟨0, Except.ok 1⟩ : Request Nat))
        (Fetch.new (⟨1, Except.ok 2⟩ : Request Nat)))).1 = [[0, 1]]
    ∧ (Fetch.run (ap2 (Fetch.pure (· + ·)) (Fetch.new (⟨0, Except.ok 1⟩ : Request Nat))
        (Fetch.new (⟨1, Except.ok 2⟩ : Request Nat)))).2 = .ok 3 :=
  ⟨(C1_ap2_single_batch (· + ·) ⟨0, Except.ok 1⟩ ⟨1, Except.ok 2⟩).1,
   (C1_ap2_single_batch (· + ·) ⟨0, Except.ok 1⟩ ⟨1, Except.ok 2⟩).2 1 2 rfl rfl⟩

/-- C2, counterexample: when the blocked side itself throws after its batch,
the overall result is that error, not the `throw`n one.  With
`mf = new(request failing with Msg "a")` (a Fetch forcing to `Blocked`) and
`e = Err(Msg "b")`, `run(apply(mf, throw(e)))` is `Err(Msg "a")` — against
the claim's "the overall result of run is Err(e)". -/
theorem C2_counterexample :
    (Fetch.run (ap (Fetch.new (⟨0, Except.error (Exception.Err (ExceptionType.Msg "a"))⟩
          : Request (Nat → Nat)))
        (throw (Exception.Err (ExceptionType.Msg "b"))))).2
      ≠ .error (Exception.Err (ExceptionType.Msg "b")) := by
  decide

/-- C2, amended: forcing `apply(mf, throw(e))` with `mf` blocked on `rs`
yields `Blocked(rs, apply(c, throw(e)))`; `rs` is still dispatched by the
evaluator (it is the next batch of the run); and the overall result is
`Err(e)` provided `mf` itself evaluates without throwing.  In the concrete
catch scenario, both underlying requests are executed, in one batch, before
the handler's result `Ok(-1)` is returned. -/
theorem C2_amended_ap_blocked_throw :
    (∀ (rs : List Nat) (c : Fetch (T → U)) (e : Exception),
        ap (Fetch.Blocked rs c) (throw e) = Fetch.Blocked rs (ap c (throw e)))
    ∧ (∀ (rs : List Nat) (c : Fetch (T → U)) (e : Exception),
        (Fetch.run (ap (Fetch.Blocked rs c) (throw e))).1
          = rs :: (Fetch.run (ap c (throw e))).1)
    ∧ (∀ (mf : Fetch (T → U)) (e : Exception) (g : T → U),
        (Fetch.run mf).2 = .ok g →
        (Fetch.run (ap mf (throw e))).2 = .error e)
    ∧ Fetch.run (Fetch.catch
        (ap2 (Fetch.pure (· + ·))
          (Fetch.new (⟨0, Except.ok 1⟩ : Request Int))
          (Fetch.new (⟨1, Except.error (Exception.Err (ExceptionType.Msg "x"))⟩
            : Request Int)))
        (fun _ => Fetch.pure (-1))) = ([[0, 1]], .ok (-1)) :=
  ⟨fun _ _ _ => rfl,
   fun _ _ _ => rfl,
   fun mf e g hf => run_ap_throw_snd mf e g hf,
   by decide⟩

/-- C2, witness for the amended claim's hypothesis-bearing part. -/
theorem C2_witness :
    (Fetch.run (ap (Fetch.Blocked [0] (Fetch.Done (fun x => x + 1)))
        (throw (Exception.Err ExceptionType.Timeout)))).2
      = .error (Exception.Err ExceptionType.Timeout) :=
  C2_amended_ap_blocked_throw.2.2.1 (Fetch.Blocked [0] (Fetch.Done (fun x : Nat => x + 1)))
    (Exception.Err ExceptionType.Timeout) (fun x => x + 1) rfl

/-- C4, counterexample: with a first request that fails, the run of
`new(r1).bind(|_| new(r2))` invokes the executor once (one batch of size 1),
not twice — the `Throw` short-circuits `bind` before `new(r2)` is forced. -/
theorem C4_counterexample :
    ((Fetch.run ((Fetch.new (⟨0, Except.error Exception.Nothing⟩ : Request Nat)).bind
        (fun _ => Fetch.new (⟨1, Except.ok (5 : Nat)⟩ : Request Nat)))).1).map List.length
      ≠ [1, 1] := by
  decide

/-- C4, amended: `bind` defers the continuation past the request frontier
(`Blocked(rs, c)` becomes `Blocked(rs, bind(c, k))`), so for every two
requests of which the first succeeds, `new(r1).bind(|_| new(r2))` runs as two
executor invocations, each with a batch of exactly one opaque request; if
`r1` fails, only the first batch is issued. -/
theorem C4_amended_bind_two_batches :
    (∀ (rs : List Nat) (c : Fetch T) (k : T → Fetch U),
        (Fetch.Blocked rs c).bind k = Fetch.Blocked rs (c.bind k))
    ∧ (∀ (r1 : Request T) (r2 : Request U) (a : T), r1.run = .ok a →
        (Fetch.run ((Fetch.new r1).bind (fun _ => Fetch.new r2))).1
          = [[r1.id], [r2.id]])
    ∧ (∀ (r1 : Request T) (r2 : Request U) (e : Exception), r1.run = .error e →
        (Fetch.run ((Fetch.new r1).bind (fun _ => Fetch.new r2))).1 = [[r1.id]]) := by
  refine ⟨fun _ _ _ => rfl, ?_, ?_⟩ <;>
    · intro r1 r2 y hy
      obtain ⟨i2, o2⟩ := r2
      rcases o2 with e2 | v2 <;>
        simp [Fetch.new, Fetch.bind, Fetch.run, hy]

/-- C4, witness: two successful requests give two batches of size 1. -/
theorem C4_witness :
    (Fetch.run ((Fetch.new (⟨0, Except.ok (7 : Nat)⟩ : Request Nat)).bind
        (fun _ => Fetch.new (⟨1, Except.ok (5 : Nat)⟩ : Request Nat)))).1 = [[0], [1]] :=
  C4_amended_bind_two_batches.2.1 ⟨0, Except.ok 7⟩ ⟨1, Except.ok 5⟩ 7 rfl

/-! ### Claim C6 -/

theorem run_foldl_snd (ms : List (Fetch T)) (vs : List T)
    (h : List.Forall₂ (fun m v => (Fetch.run m).2 = .ok v) ms vs) :
    ∀ (acc : Fetch (List T)) (l : List T), (Fetch.run acc).2 = .ok l →
    (Fetch.run (ms.foldl cons_f acc)).2 = .ok (l ++ vs) := by
  induction h with
  | nil => intro acc l ha; simpa using ha
  | @cons m v ms vs h1 h2 ih =>
    intro acc l ha
    have hacc : (Fetch.run (cons_f acc m)).2 = .ok (l ++ [v]) :=
      run_ap_snd (acc.fmap fun ys x => ys ++ [x]) (fun x => l ++ [x])
        (run_fmap_snd acc (fun ys x => ys ++ [x]) l ha) m v h1
    simpa [List.foldl_cons, List.append_assoc] using ih (cons_f acc m) (l ++ [v]) hacc

theorem run_foldl_new (rs : List (Request T)) (vs : List T)
    (h : List.Forall₂ (fun r v => r.run = .ok v) rs vs) :
    ∀ (ids : List Nat) (l : List T), ids ≠ [] →
    Fetch.run ((rs.map Fetch.new).foldl cons_f (Fetch.Blocked ids (Fetch.Done l)))
      = ([ids ++ rs.map Request.id], .ok (l ++ vs)) := by
  induction h with
  | nil => intro ids l _; simp [Fetch.run]
  | @cons r v rs vs h1 h2 ih =>
    intro ids l hne
    have hstep : cons_f (Fetch.Blocked ids (Fetch.Done l)) (Fetch.new r)
        = Fetch.Blocked (ids ++ [r.id]) (Fetch.Done (l ++ [v])) := by
      simp [cons_f, Fetch.fmap, Fetch.new, h1, ap, vec_merge_snoc ids r.id hne]
    simp only [List.map_cons, List.foldl_cons, hstep]
    simpa [List.append_assoc] using ih (ids ++ [r.id]) (l ++ [v]) (by simp)

/-- C6: for a list of Fetches whose i-th element evaluates to `Ok(v_i)`,
`sequence` (hence `traverse`) evaluates to the vector `[v_1, ..., v_n]` in
input order; and for `n ≥ 1` single-request Fetches `new(r_i)` whose requests
succeed, every per-element frontier is merged through `cons_f`'s `apply`, so
the whole run is a single executor invocation whose batch is the `n`
requests (in input order). -/
theorem C6_sequence_order_and_batch :
    (∀ (ms : List (Fetch T)) (vs : List T),
        List.Forall₂ (fun m v => (Fetch.run m).2 = .ok v) ms vs →
        (Fetch.run (sequence ms)).2 = .ok vs)
    ∧ (∀ (rs : List (Request T)) (vs : List T), rs ≠ [] →
        List.Forall₂ (fun r v => r.run = .ok v) rs vs →
        Fetch.run (sequence (rs.map Fetch.new)) = ([rs.map Request.id], .ok vs)) := by
  constructor
  · intro ms vs h
    simpa [sequence] using run_foldl_snd ms vs h (Fetch.pure []) [] rfl
  · intro rs vs hne h
    cases h with
    | nil => exact absurd rfl hne
    | @cons r v rs' vs' h1 h2 =>
      have hfirst : cons_f (Fetch.pure []) (Fetch.new r)
          = Fetch.Blocked [r.id] (Fetch.Done [v]) := by
        simp [cons_f, Fetch.pure, Fetch.fmap, Fetch.new, h1, ap]
      simp only [sequence, List.map_cons, List.foldl_cons, hfirst]
      simpa using run_foldl_new rs' vs' h2 [r.id] [v] (by simp)

/-- C6, witness: three immediate requests, one batch of size 3, values in
input order. -/
theorem C6_witness :
    Fetch.run (sequence (([⟨0, Except.ok 10⟩, ⟨1, Except.ok 11⟩,
        ⟨2, Except.ok 12⟩] : List (Request Nat)).map Fetch.new))
      = ([[0, 1, 2]], .ok [10, 11, 12]) :=
  C6_sequence_order_and_batch.2 [⟨0, Except.ok 10⟩, ⟨1, Except.ok 11⟩, ⟨2, Except.ok 12⟩]
    [10, 11, 12] (by simp) (.cons rfl (.cons rfl (.cons rfl .nil)))

/-! ### Claim C7 -/

theorem isEmpty_vec_merge (a b : List α) (ha : a.isEmpty = false)
    (hb : b.isEmpty = false) : (vec_merge a b).isEmpty = false := by
  cases a with
  | nil => simp at ha
  | cons y ys =>
    cases b with
    | nil => simp at hb
    | cons z zs =>
      unfold vec_merge
      split <;> simp

theorem NE_blocked (br : List Nat) (c : Fetch T) :
    NE (Fetch.Blocked br c) = true ↔ br.isEmpty = false ∧ NE c = true := by
  simp [NE, Bool.and_eq_true, Bool.not_eq_true']

theorem NE_fmap (m : Fetch T) (f : T → U) (hm : NE m = true) :
    NE (m.fmap f) = true := by
  induction m with
  | Done a => rfl
  | Blocked br c ih =>
    rw [NE_blocked] at hm
    rw [Fetch.fmap, NE_blocked]
    exact ⟨hm.1, ih hm.2⟩
  | Throw e => rfl

theorem NE_bind (m : Fetch T) (k : T → Fetch U) (hm : NE m = true)
    (hk : ∀ a, NE (k a) = true) : NE (m.bind k) = true := by
  induction m with
  | Done a => exact hk a
  | Blocked br c ih =>
    rw [NE_blocked] at hm
    rw [Fetch.bind, NE_blocked]
    exact ⟨hm.1, ih hm.2⟩
  | Throw e => rfl

theorem NE_ap (mf : Fetch (T → U)) (hf : NE mf = true) :
    ∀ (mx : Fetch T), NE mx = true → NE (ap mf mx) = true := by
  induction mf with
  | Done g =>
    intro mx hx
    cases mx with
    | Done b => rfl
    | Blocked br c =>
      rw [NE_blocked] at hx
      rw [ap, NE_blocked]
      exact ⟨hx.1, NE_fmap c g hx.2⟩
    | Throw e => rfl
  | Blocked br cf ih =>
    rw [NE_blocked] at hf
    intro mx hx
    cases mx with
    | Done b =>
      rw [ap, NE_blocked]
      exact ⟨hf.1, ih hf.2 (Fetch.pure b) rfl⟩
    | Blocked br2 cx =>
      rw [NE_blocked] at hx
      rw [ap, NE_blocked]
      exact ⟨isEmpty_vec_merge br br2 hf.1 hx.1, ih hf.2 cx hx.2⟩
    | Throw e =>
      rw [ap, NE_blocked]
      exact ⟨hf.1, ih hf.2 (throw e) rfl⟩
  | Throw e => intro mx hx; cases mx <;> rfl

theorem NE_catch (m : Fetch T) (h : ExceptionType → Fetch T) (hm : NE m = true)
    (hh : ∀ et, NE (h et) = true) : NE (Fetch.catch m h) = true := by
  induction m with
  | Done a => rfl
  | Blocked br c ih =>
    rw [NE_blocked] at hm
    rw [Fetch.catch, NE_blocked]
    exact ⟨hm.1, ih hm.2⟩
  | Throw e =>
    cases e with
    | Err et => exact hh et
    | Nothing => rfl

theorem NE_new (r : Request T) : NE (Fetch.new r) = true := by
  obtain ⟨i, o⟩ := r
  rcases o with e | v <;> rfl

theorem NE_foldl (ms : List (Fetch T)) :
    ∀ (acc : Fetch (List T)), NE acc = true → (∀ m ∈ ms, NE m = true) →
    NE (ms.foldl cons_f acc) = true := by
  induction ms with
  | nil => intro acc hacc _; exact hacc
  | cons m rest ih =>
    intro acc hacc hms
    rw [List.foldl_cons]
    exact ih (cons_f acc m)
      (NE_ap (acc.fmap fun ys x => ys ++ [x])
        (NE_fmap acc (fun ys x => ys ++ [x]) hacc) m (hms m (List.mem_cons_self m rest)))
      fun m hm => hms m (List.mem_cons_of_mem _ hm)

/-- C7: every Fetch built from the public constructors and combinators has
only non-empty request lists in its `Blocked` steps — the constructors
produce none or a singleton, and every combinator preserves the invariant
(`vec_merge` of two non-empty lists being non-empty); in particular
`Fetch::new` produces a singleton list. -/
theorem C7_blocked_nonempty :
    (∀ (T : Type u) (a : T), NE (Fetch.pure a) = true)
    ∧ (∀ (T : Type u) (f : Unit → T), NE (Fetch.pure_fn f) = true)
    ∧ (∀ (T : Type u) (r : Request T), NE (Fetch.new r) = true)
    ∧ (∀ (T : Type u) (e : Exception), NE (throw e : Fetch T) = true)
    ∧ (∀ (T U : Type u) (m : Fetch T) (k : T → Fetch U), NE m = true →
        (∀ a, NE (k a) = true) → NE (m.bind k) = true)
    ∧ (∀ (T U : Type u) (m : Fetch T) (f : T → U), NE m = true →
        NE (m.fmap f) = true)
    ∧ (∀ (T U : Type u) (mf : Fetch (T → U)) (mx : Fetch T), NE mf = true →
        NE mx = true → NE (ap mf mx) = true)
    ∧ (∀ (T : Type u) (m : Fetch T) (h : ExceptionType → Fetch T), NE m = true →
        (∀ et, NE (h et) = true) → NE (Fetch.catch m h) = true)
    ∧ (∀ (T : Type u) (ms : List (Fetch T)), (∀ m ∈ ms, NE m = true) →
        NE (sequence ms) = true)
    ∧ (∀ (T : Type u) (r : Request T), ∃ k, Fetch.new r = Fetch.Blocked [r.id] k)
    ∧ (∀ (a b : List Nat), a ≠ [] → b ≠ [] → vec_merge a b ≠ []) :=
  ⟨fun _ _ => rfl,
   fun _ _ => rfl,
   fun _ r => NE_new r,
   fun _ _ => rfl,
   fun _ _ m k hm hk => NE_bind m k hm hk,
   fun _ _ m f hm => NE_fmap m f hm,
   fun _ _ mf mx hf hx => NE_ap mf hf mx hx,
   fun _ m h hm hh => NE_catch m h hm hh,
   fun _ ms hms => NE_foldl ms (Fetch.pure []) rfl hms,
   fun _ _ => ⟨_, rfl⟩,
   fun a b ha hb => vec_merge_ne_nil a b ha hb⟩

/-- C7, witness: a composite of `new`, `bind`, `ap` and `catch` keeps every
`Blocked` request list non-empty. -/
theorem C7_witness :
    NE (Fetch.catch
      (ap ((Fetch.new (⟨0, Except.ok 1⟩ : Request Nat)).bind
            (fun a => Fetch.pure (fun b => a + b)))
          (Fetch.new (⟨1, Except.ok 2⟩ : Request Nat)))
      (fun _ => Fetch.pure 0)) = true :=
  C7_blocked_nonempty.2.2.2.2.2.2.2.1 Nat
    (ap ((Fetch.new (⟨0, Except.ok 1⟩ : Request Nat)).bind
        (fun a => Fetch.pure (fun b => a + b)))
      (Fetch.new (⟨1, Except.ok 2⟩ : Request Nat)))
    (fun _ => Fetch.pure 0)
    (C7_blocked_nonempty.2.2.2.2.2.2.1 Nat Nat
      ((Fetch.new (⟨0, Except.ok 1⟩ : Request Nat)).bind
        (fun a => Fetch.pure (fun b => a + b)))
      (Fetch.new (⟨1, Except.ok 2⟩ : Request Nat))
      (by decide) (by decide))
    (fun _ => rfl)

/-! ### Claim C8: the cell protocol -/

theorem readers_embed (fb : FB C) : readers (embed fb) = [] := by
  induction fb <;> simp_all [embed, readers]

theorem mem_vec_merge (i : α) (a b : List α) : i ∈ vec_merge a b ↔ i ∈ a ∨ i ∈ b := by
  unfold vec_merge
  split <;> simp [List.mem_append, or_comm]

theorem Post_unblocked (st : St) (c : FC C) (step : StC C)
    (h : ∀ (br : List Nat) (cont : FC C), step = StC.blocked br cont → False) :
    Post st c step st :=
  ⟨Nat.le_refl _, fun _ hj => hj, fun _ hj _ => hj, fun br cont heq => (h br cont heq).elim⟩

theorem Post_of_parts (st st1 : St) (c0 : FC C) (step : StC C)
    (h1 : st.fresh ≤ st1.fresh) (h2 : ∀ j ∈ st1.cells, j ∈ st.cells)
    (h3 : ∀ j ∈ st.cells, j ∉ readers c0 → j ∈ st1.cells)
    (hnb : ∀ (br : List Nat) (cont : FC C), step = StC.blocked br cont → False) :
    Post st c0 step st1 :=
  ⟨h1, h2, h3, fun br cont heq => (hnb br cont heq).elim⟩

theorem Post_reblock {A C : Type u} (st st1 : St) (c : FC A) (c0 : FC C) (br : List Nat)
    (cont1 : FC A) (cont0 : FC C)
    (hreq : readers c0 = readers c)
    (hcont : readers cont0 = readers cont1)
    (hp : Post st c (StC.blocked br cont1) st1) :
    Post st c0 (StC.blocked br cont0) st1 := by
  obtain ⟨h1, h2, h3, h4⟩ := hp
  obtain ⟨p1, p2, p3, p4⟩ := h4 br cont1 rfl
  refine ⟨h1, h2, fun j hj hr => h3 j hj (by rwa [← hreq]), ?_⟩
  intro br2 cont2 heq
  cases heq
  rw [hcont, hreq]
  exact ⟨p1, p2, p3, p4⟩

theorem Post_seq (st st1 st2 : St) (c0 c2 : FC C) (step : StC C)
    (h1 : st.fresh ≤ st1.fresh) (h2 : ∀ j ∈ st1.cells, j ∈ st.cells)
    (h3 : ∀ j ∈ st.cells, j ∉ readers c0 → j ∈ st1.cells)
    (hp2 : Post st1 c2 step st2) (hr2 : readers c2 = []) :
    Post st c0 step st2 := by
  obtain ⟨g1, g2, g3, g4⟩ := hp2
  refine ⟨Nat.le_trans h1 g1, fun j hj => h2 j (g2 j hj),
    fun j hj _ => g3 j (h3 j hj (by assumption)) (by simp [hr2]), ?_⟩
  intro br cont heq
  obtain ⟨p1, p2, p3, p4⟩ := g4 br cont heq
  refine ⟨p1, ?_, fun i hi => ⟨Nat.le_trans h1 (p3 i hi).1, (p3 i hi).2⟩, p4⟩
  intro i hi
  rcases p2 i hi with ⟨hin, _⟩ | hbr
  · rw [hr2] at hin; cases hin
  · exact Or.inr hbr

theorem force_spec : ∀ (n : Nat) {T : Type u} (st : St) (c : FC T), Pre st c →
    forceC n st c ≠ FR.dead ∧
    ∀ (step : StC T) (st1 : St), forceC n st c = FR.ok (step, st1) → Post st c step st1 := by
  intro n
  induction n with
  | zero =>
    intro T st c _
    constructor
    · simp [forceC]
    · intro step st1 h
      simp [forceC] at h
  | succ n ih =>
    intro T st c hpre
    obtain ⟨hnd, hwr, hlt⟩ := hpre
    cases c with
    | pureC a =>
      refine ⟨by simp [forceC], ?_⟩
      intro step st1 h
      simp only [forceC, FR.ok.injEq, Prod.mk.injEq] at h
      obtain ⟨rfl, rfl⟩ := h
      exact Post_unblocked st _ _ (fun br cont heq => by cases heq)
    | pureFnC f =>
      refine ⟨by simp [forceC], ?_⟩
      intro step st1 h
      simp only [forceC, FR.ok.injEq, Prod.mk.injEq] at h
      obtain ⟨rfl, rfl⟩ := h
      exact Post_unblocked st _ _ (fun br cont heq => by cases heq)
    | newC o =>
      refine ⟨by simp [forceC], ?_⟩
      intro step st1 h
      simp only [forceC, FR.ok.injEq, Prod.mk.injEq] at h
      obtain ⟨rfl, rfl⟩ := h
      refine ⟨Nat.le_succ _, fun j hj => hj, fun j hj _ => hj, ?_⟩
      intro br cont heq
      cases heq
      refine ⟨List.nodup_singleton _, ?_, ?_, ?_⟩
      · intro i hi
        simp only [readers] at hi
        exact Or.inr (by simpa using hi)
      · intro i hi
        simp only [List.mem_singleton] at hi
        subst hi
        exact ⟨Nat.le_refl _, Nat.lt_succ_self _⟩
      · intro i hi
        simp only [readers, List.mem_singleton] at hi
        subst hi
        exact Nat.lt_succ_self _
    | throwC e =>
      refine ⟨by simp [forceC], ?_⟩
      intro step st1 h
      simp only [forceC, FR.ok.injEq, Prod.mk.injEq] at h
      obtain ⟨rfl, rfl⟩ := h
      exact Post_unblocked st _ _ (fun br cont heq => by cases heq)
    | rdr i o =>
      have hic : i ∈ st.cells := hwr i (by simp [readers])
      constructor
      · cases o <;> simp [forceC, hic]
      · intro step st1 h
        rcases o with e | v <;>
        · simp only [forceC, hic, if_pos, FR.ok.injEq, Prod.mk.injEq] at h
          obtain ⟨rfl, rfl⟩ := h
          exact ⟨Nat.le_refl _, fun j hj => List.mem_of_mem_erase hj,
            fun j hj hr => (List.mem_erase_of_ne (by simpa [readers] using hr)).mpr hj,
            fun br cont heq => by cases heq⟩
    | bindC m k =>
      obtain ⟨hne1, hpost1⟩ := ih st m ⟨hnd, hwr, hlt⟩
      cases hm : forceC n st m with
      | gas =>
        refine ⟨by simp [forceC, hm], ?_⟩
        intro step st1 h
        simp [forceC, hm] at h
      | dead => exact absurd hm hne1
      | ok p =>
        obtain ⟨s1, st1⟩ := p
        have hp1 := hpost1 s1 st1 hm
        cases s1 with
        | done a =>
          have hred : forceC (n + 1) st (FC.bindC m k) = forceC n st1 (embed (k a)) := by
            simp [forceC, hm]
          obtain ⟨hne2, hpost2⟩ := ih st1 (embed (k a))
            ⟨by simp [readers_embed], by simp [readers_embed], by simp [readers_embed]⟩
          refine ⟨by rw [hred]; exact hne2, ?_⟩
          intro step st2 h
          rw [hred] at h
          exact Post_seq st st1 st2 _ _ step hp1.1 hp1.2.1 hp1.2.2.1
            (hpost2 step st2 h) (readers_embed _)
        | blocked br c1 =>
          have hred : forceC (n + 1) st (FC.bindC m k)
              = FR.ok (StC.blocked br (FC.bindC c1 k), st1) := by
            simp [forceC, hm]
          refine ⟨by simp [hred], ?_⟩
          intro step st2 h
          rw [hred] at h
          simp only [FR.ok.injEq, Prod.mk.injEq] at h
          obtain ⟨rfl, rfl⟩ := h
          exact Post_reblock st st1 m _ br c1 _ rfl rfl hp1
        | throwS e =>
          have hred : forceC (n + 1) st (FC.bindC m k) = FR.ok (StC.throwS e, st1) := by
            simp [forceC, hm]
          refine ⟨by simp [hred], ?_⟩
          intro step st2 h
          rw [hred] at h
          simp only [FR.ok.injEq, Prod.mk.injEq] at h
          obtain ⟨rfl, rfl⟩ := h
          exact Post_of_parts st st1 _ _ hp1.1 hp1.2.1 hp1.2.2.1
            (fun br cont heq => by cases heq)
    | fmapC m f =>
      obtain ⟨hne1, hpost1⟩ := ih st m ⟨hnd, hwr, hlt⟩
      cases hm : forceC n st m with
      | gas =>
        refine ⟨by simp [forceC, hm], ?_⟩
        intro step st1 h
        simp [forceC, hm] at h
      | dead => exact absurd hm hne1
      | ok p =>
        obtain ⟨s1, st1⟩ := p
        have hp1 := hpost1 s1 st1 hm
        cases s1 with
        | done a =>
          have hred : forceC (n + 1) st (FC.fmapC m f) = FR.ok (StC.done (f a), st1) := by
            simp [forceC, hm]
          refine ⟨by simp [hred], ?_⟩
          intro step st2 h
          rw [hred] at h
          simp only [FR.ok.injEq, Prod.mk.injEq] at h
          obtain ⟨rfl, rfl⟩ := h
          exact Post_of_parts st st1 _ _ hp1.1 hp1.2.1 hp1.2.2.1
            (fun br cont heq => by cases heq)
        | blocked br c1 =>
          have hred : forceC (n + 1) st (FC.fmapC m f)
              = FR.ok (StC.blocked br (FC.fmapC c1 f), st1) := by
            simp [forceC, hm]
          refine ⟨by simp [hred], ?_⟩
          intro step st2 h
          rw [hred] at h
          simp only [FR.ok.injEq, Prod.mk.injEq] at h
          obtain ⟨rfl, rfl⟩ := h
          exact Post_reblock st st1 m _ br c1 _ rfl rfl hp1
        | throwS e =>
          have hred : forceC (n + 1) st (FC.fmapC m f) = FR.ok (StC.throwS e, st1) := by
            simp [forceC, hm]
          refine ⟨by simp [hred], ?_⟩
          intro step st2 h
          rw [hred] at h
          simp only [FR.ok.injEq, Prod.mk.injEq] at h
          obtain ⟨rfl, rfl⟩ := h
          exact Post_of_parts st st1 _ _ hp1.1 hp1.2.1 hp1.2.2.1
            (fun br cont heq => by cases heq)
    | apC f x =>
      have hnd2 : ((readers f) ++ (readers x)).Nodup := hnd
      have hndf : (readers f).Nodup := (List.nodup_append.mp hnd2).1
      have hndx : (readers x).Nodup := (List.nodup_append.mp hnd2).2.1
      have hdisj : ∀ i, i ∈ readers f → i ∈ readers x → False :=
        fun i hif hix => (List.nodup_append.mp hnd2).2.2 hif hix
      have hwrf : ∀ i ∈ readers f, i ∈ st.cells :=
        fun i hi => hwr i (List.mem_append_left _ hi)
      have hwrx : ∀ i ∈ readers x, i ∈ st.cells :=
        fun i hi => hwr i (List.mem_append_right _ hi)
      have hltf : ∀ i ∈ readers f, i < st.fresh :=
        fun i hi => hlt i (List.mem_append_left _ hi)
      have hltx : ∀ i ∈ readers x, i < st.fresh :=
        fun i hi => hlt i (List.mem_append_right _ hi)
      obtain ⟨hnef, hpostf⟩ := ih st f ⟨hndf, hwrf, hltf⟩
      cases hf : forceC n st f with
      | gas =>
        refine ⟨by simp [forceC, hf], ?_⟩
        intro step st' h
        simp [forceC, hf] at h
      | dead => exact absurd hf hnef
      | ok p =>
        obtain ⟨sf, st1⟩ := p
        have hp1 := hpostf sf st1 hf
        obtain ⟨hnex, hpostx⟩ := ih st1 x
          ⟨hndx, fun i hi => hp1.2.2.1 i (hwrx i hi) (fun hif => hdisj i hif hi),
           fun i hi => Nat.lt_of_lt_of_le (hltx i hi) hp1.1⟩
        cases hx : forceC n st1 x with
        | gas =>
          refine ⟨by simp [forceC, hf, hx], ?_⟩
          intro step st' h
          simp [forceC, hf, hx] at h
        | dead => exact absurd hx hnex
        | ok q =>
          obtain ⟨sx, st2⟩ := q
          have hp2 := hpostx sx st2 hx
          have t1 : st.fresh ≤ st2.fresh := Nat.le_trans hp1.1 hp2.1
          have t2 : ∀ j ∈ st2.cells, j ∈ st.cells :=
            fun j hj => hp1.2.1 j (hp2.2.1 j hj)
          have t3 : ∀ j ∈ st.cells, j ∉ readers f ++ readers x → j ∈ st2.cells := by
            intro j hj hnr
            rw [List.mem_append, not_or] at hnr
            exact hp2.2.2.1 j (hp1.2.2.1 j hj hnr.1) hnr.2
          cases sf with
          | done g =>
            cases sx with
            | done v =>
              have hred : forceC (n + 1) st (FC.apC f x)
                  = FR.ok (StC.done (g v), st2) := by simp [forceC, hf, hx]
              refine ⟨by simp [hred], ?_⟩
              intro step st' h
              rw [hred] at h
              simp only [FR.ok.injEq, Prod.mk.injEq] at h
              obtain ⟨rfl, rfl⟩ := h
              exact Post_of_parts st st2 _ _ t1 t2 t3 (fun br cont heq => by cases heq)
            | blocked br c2 =>
              have hred : forceC (n + 1) st (FC.apC f x)
                  = FR.ok (StC.blocked br (FC.fmapC c2 g), st2) := by simp [forceC, hf, hx]
              refine ⟨by simp [hred], ?_⟩
              intro step st' h
              rw [hred] at h
              simp only [FR.ok.injEq, Prod.mk.injEq] at h
              obtain ⟨rfl, rfl⟩ := h
              obtain ⟨q1, q2, q3, q4⟩ := hp2.2.2.2 br c2 rfl
              refine ⟨t1, t2, t3, ?_⟩
              intro br' cont' heq
              cases heq
              refine ⟨q1, ?_, ?_, q4⟩
              · intro i hi
                rcases q2 i hi with ⟨hix, hic⟩ | hbr
                · exact Or.inl ⟨List.mem_append_right _ hix, hic⟩
                · exact Or.inr hbr
              · intro i hi
                exact ⟨Nat.le_trans hp1.1 (q3 i hi).1, (q3 i hi).2⟩
            | throwS e =>
              have hred : forceC (n + 1) st (FC.apC f x)
                  = FR.ok (StC.throwS e, st2) := by simp [forceC, hf, hx]
              refine ⟨by simp [hred], ?_⟩
              intro step st' h
              rw [hred] at h
              simp only [FR.ok.injEq, Prod.mk.injEq] at h
              obtain ⟨rfl, rfl⟩ := h
              exact Post_of_parts st st2 _ _ t1 t2 t3 (fun br cont heq => by cases heq)
          | blocked br1 c1 =>
            obtain ⟨a1, a2, a3, a4⟩ := hp1.2.2.2 br1 c1 rfl
            cases sx with
            | done v =>
              have hred : forceC (n + 1) st (FC.apC f x)
                  = FR.ok (StC.blocked br1 (FC.apC c1 (FC.pureC v)), st2) := by
                simp [forceC, hf, hx]
              refine ⟨by simp [hred], ?_⟩
              intro step st' h
              rw [hred] at h
              simp only [FR.ok.injEq, Prod.mk.injEq] at h
              obtain ⟨rfl, rfl⟩ := h
              refine ⟨t1, t2, t3, ?_⟩
              intro br' cont' heq
              cases heq
              have hrc : readers (FC.apC c1 (FC.pureC v)) = readers c1 := by
                simp [readers]
              rw [hrc]
              refine ⟨a1, ?_, ?_, ?_⟩
              · intro i hi
                rcases a2 i hi with ⟨hif, hic⟩ | hbr
                · exact Or.inl ⟨List.mem_append_left _ hif,
                    hp2.2.2.1 i hic (fun hix => hdisj i hif hix)⟩
                · exact Or.inr hbr
              · intro i hi
                exact ⟨(a3 i hi).1, Nat.lt_of_lt_of_le (a3 i hi).2 hp2.1⟩
              · intro i hi
                exact Nat.lt_of_lt_of_le (a4 i hi) hp2.1
            | blocked br2 c2 =>
              obtain ⟨b1, b2, b3, b4⟩ := hp2.2.2.2 br2 c2 rfl
              have hred : forceC (n + 1) st (FC.apC f x)
                  = FR.ok (StC.blocked (vec_merge br1 br2) (FC.apC c1 c2), st2) := by
                simp [forceC, hf, hx]
              refine ⟨by simp [hred], ?_⟩
              intro step st' h
              rw [hred] at h
              simp only [FR.ok.injEq, Prod.mk.injEq] at h
              obtain ⟨rfl, rfl⟩ := h
              refine ⟨t1, t2, t3, ?_⟩
              intro br' cont' heq
              cases heq
              have hnc : ((readers c1) ++ (readers c2)).Nodup := by
                rw [List.nodup_append]
                refine ⟨a1, b1, ?_⟩
                intro i hi1 hi2
                rcases a2 i hi1 with ⟨hif, _⟩ | hbr1
                · rcases b2 i hi2 with ⟨hix, _⟩ | hbr2
                  · exact hdisj i hif hix
                  · have h1 := hltf i hif
                    have h2 := (b3 i hbr2).1
                    have h3 := hp1.1
                    omega
                · rcases b2 i hi2 with ⟨hix, _⟩ | hbr2
                  · have h1 := hltx i hix
                    have h2 := (a3 i hbr1).1
                    omega
                  · have h1 := (a3 i hbr1).2
                    have h2 := (b3 i hbr2).1
                    omega
              refine ⟨hnc, ?_, ?_, ?_⟩
              · intro i hi
                rcases List.mem_append.mp hi with hi1 | hi2
                · rcases a2 i hi1 with ⟨hif, hic⟩ | hbr1
                  · exact Or.inl ⟨List.mem_append_left _ hif,
                      hp2.2.2.1 i hic (fun hix => hdisj i hif hix)⟩
                  · exact Or.inr ((mem_vec_merge i br1 br2).mpr (Or.inl hbr1))
                · rcases b2 i hi2 with ⟨hix, hic⟩ | hbr2
                  · exact Or.inl ⟨List.mem_append_right _ hix, hic⟩
                  · exact Or.inr ((mem_vec_merge i br1 br2).mpr (Or.inr hbr2))
              · intro i hi
                rcases (mem_vec_merge i br1 br2).mp hi with hbr1 | hbr2
                · exact ⟨(a3 i hbr1).1, Nat.lt_of_lt_of_le (a3 i hbr1).2 hp2.1⟩
                · exact ⟨Nat.le_trans hp1.1 (b3 i hbr2).1, (b3 i hbr2).2⟩
              · intro i hi
                rcases List.mem_append.mp hi with hi1 | hi2
                · exact Nat.lt_of_lt_of_le (a4 i hi1) hp2.1
                · exact b4 i hi2
            | throwS e =>
              have hred : forceC (n + 1) st (FC.apC f x)
                  = FR.ok (StC.blocked br1 (FC.apC c1 (FC.throwC e)), st2) := by
                simp [forceC, hf, hx]
              refine ⟨by simp [hred], ?_⟩
              intro step st' h
              rw [hred] at h
              simp only [FR.ok.injEq, Prod.mk.injEq] at h
              obtain ⟨rfl, rfl⟩ := h
              refine ⟨t1, t2, t3, ?_⟩
              intro br' cont' heq
              cases heq
              have hrc : readers (FC.apC c1 (FC.throwC e)) = readers c1 := by
                simp [readers]
              rw [hrc]
              refine ⟨a1, ?_, ?_, ?_⟩
              · intro i hi
                rcases a2 i hi with ⟨hif, hic⟩ | hbr
                · exact Or.inl ⟨List.mem_append_left _ hif,
                    hp2.2.2.1 i hic (fun hix => hdisj i hif hix)⟩
                · exact Or.inr hbr
              · intro i hi
                exact ⟨(a3 i hi).1, Nat.lt_of_lt_of_le (a3 i hi).2 hp2.1⟩
              · intro i hi
                exact Nat.lt_of_lt_of_le (a4 i hi) hp2.1
          | throwS e =>
            have hred : forceC (n + 1) st (FC.apC f x)
                = FR.ok (StC.throwS e, st2) := by
              cases sx <;> simp [forceC, hf, hx]
            refine ⟨by simp [hred], ?_⟩
            intro step st' h
            rw [hred] at h
            simp only [FR.ok.injEq, Prod.mk.injEq] at h
            obtain ⟨rfl, rfl⟩ := h
            exact Post_of_parts st st2 _ _ t1 t2 t3 (fun br cont heq => by cases heq)
    | catchC m h =>
      obtain ⟨hne1, hpost1⟩ := ih st m ⟨hnd, hwr, hlt⟩
      cases hm : forceC n st m with
      | gas =>
        refine ⟨by simp [forceC, hm], ?_⟩
        intro step st1 hh
        simp [forceC, hm] at hh
      | dead => exact absurd hm hne1
      | ok p =>
        obtain ⟨s1, st1⟩ := p
        have hp1 := hpost1 s1 st1 hm
        cases s1 with
        | done a =>
          have hred : forceC (n + 1) st (FC.catchC m h) = FR.ok (StC.done a, st1) := by
            simp [forceC, hm]
          refine ⟨by simp [hred], ?_⟩
          intro step st2 hh
          rw [hred] at hh
          simp only [FR.ok.injEq, Prod.mk.injEq] at hh
          obtain ⟨rfl, rfl⟩ := hh
          exact Post_of_parts st st1 _ _ hp1.1 hp1.2.1 hp1.2.2.1
            (fun br cont heq => by cases heq)
        | blocked br c1 =>
          have hred : forceC (n + 1) st (FC.catchC m h)
              = FR.ok (StC.blocked br (FC.catchC c1 h), st1) := by
            simp [forceC, hm]
          refine ⟨by simp [hred], ?_⟩
          intro step st2 hh
          rw [hred] at hh
          simp only [FR.ok.injEq, Prod.mk.injEq] at hh
          obtain ⟨rfl, rfl⟩ := hh
          exact Post_reblock st st1 m _ br c1 _ rfl rfl hp1
        | throwS e =>
          cases e with
          | Err et =>
            have hred : forceC (n + 1) st (FC.catchC m h)
                = forceC n st1 (embed (h et)) := by
              simp [forceC, hm]
            obtain ⟨hne2, hpost2⟩ := ih st1 (embed (h et))
              ⟨by simp [readers_embed], by simp [readers_embed], by simp [readers_embed]⟩
            refine ⟨by rw [hred]; exact hne2, ?_⟩
            intro step st2 hh
            rw [hred] at hh
            exact Post_seq st st1 st2 _ _ step hp1.1 hp1.2.1 hp1.2.2.1
              (hpost2 step st2 hh) (readers_embed _)
          | Nothing =>
            have hred : forceC (n + 1) st (FC.catchC m h)
                = FR.ok (StC.throwS Exception.Nothing, st1) := by
              simp [forceC, hm]
            refine ⟨by simp [hred], ?_⟩
            intro step st2 hh
            rw [hred] at hh
            simp only [FR.ok.injEq, Prod.mk.injEq] at hh
            obtain ⟨rfl, rfl⟩ := hh
            exact Post_of_parts st st1 _ _ hp1.1 hp1.2.1 hp1.2.2.1
              (fun br cont heq => by cases heq)



theorem runB_no_dead : ∀ (n : Nat) {T : Type u} (st : St) (c : FC T), Pre st c →
    runB n st c ≠ FR.dead := by
  intro n
  induction n with
  | zero => intro T st c _; simp [runB]
  | succ n ih =>
    intro T st c hpre
    obtain ⟨hne, hpost⟩ := force_spec (n + 1) st c hpre
    cases hfc : forceC (n + 1) st c with
    | gas => simp [runB, hfc]
    | dead => exact absurd hfc hne
    | ok p =>
      obtain ⟨step, st1⟩ := p
      have hp := hpost step st1 hfc
      cases step with
      | done a => simp [runB, hfc]
      | throwS e => simp [runB, hfc]
      | blocked br cont =>
        obtain ⟨p1, p2, p3, p4⟩ := hp.2.2.2 br cont rfl
        have hdr : runB (n + 1) st c = runB n (drain st1 br) cont := by
          simp [runB, hfc]
        rw [hdr]
        apply ih (drain st1 br) cont
        refine ⟨p1, ?_, ?_⟩
        · intro i hi
          rcases p2 i hi with ⟨_, hic⟩ | hbr
          · exact List.mem_append_right _ hic
          · exact List.mem_append_left _ hbr
        · intro i hi
          exact p4 i hi

/-- C8: evaluating any Fetch built from the public API with `run`, the
continuation created by `Fetch::new` never observes its status cell in the
`NotFetched` state — the `unreachable!()` branch at the read site is never
taken (for any amount of fuel, so in particular on every terminating run):
`run` drains every `Blocked` request list, writing each cell
(`NotFetched → FetchSuccess | FetchException`), before it forces the
continuation behind it. -/
theorem C8_cell_never_notfetched (fb : FB C) (n : Nat) :
    isDead (runFB n fb) = false := by
  have h := runB_no_dead n (⟨0, []⟩ : St) (embed fb)
    ⟨by simp [readers_embed], by simp [readers_embed], by simp [readers_embed]⟩
  unfold runFB
  cases hr : runB n (⟨0, []⟩ : St) (embed fb) with
  | ok a => rfl
  | dead => exact absurd hr h
  | gas => rfl

end Ruxl
